import Mathlib

/-!
# Verified model of the stock-news-transcriber core

A shallow embedding, in Lean 4, of the core text-processing components of the
`stock-news-transcriber` repository:

* the deduplication engine (`src/utils/safe_dedup.py`,
  `src/utils/dedup_marker_processor.py`);
* the entity resolver (`src/core/data_managers.py`,
  `src/utils/context_aware_resolver.py`);
* the market cache and price validator (`src/utils/market_cache.py`,
  `src/validation/fact_checker.py`);
* the chunk merger (`src/core/utils.py`, `src/utils/text_deduplication.py`).

Python strings are modelled as Lean `String`s (operated on through their
`List Char` representation, matching Python's code-point indexing); Python
floats that only take part in threshold comparisons are modelled as `ℚ`;
external libraries (`thefuzz`, `pythainlp`) are abstract parameters, while
`difflib.SequenceMatcher` is reimplemented executably.
-/

namespace PyStr

/-- Python's whitespace class for `str.strip` / `str.split()` / `\s`
(ASCII part, which covers every character appearing in this development). -/
def isSpace (c : Char) : Bool :=
  c == ' ' || c == '\t' || c == '\n' || c == '\r' || c == '\x0b' || c == '\x0c'

/-- `str.strip()` on a character list: drop whitespace from both ends. -/
def stripL (l : List Char) : List Char :=
  ((l.dropWhile isSpace).reverse.dropWhile isSpace).reverse

/-- `str.strip()`. -/
def pyStrip (s : String) : String := (stripL s.toList).asString

/-- Split a character list at every character satisfying `p`, keeping empty
pieces — the semantics of Python's `str.split(sep)` for a one-character
separator when `p` tests for that separator. -/
def splitPL (p : Char → Bool) : List Char → List (List Char)
  | [] => [[]]
  | c :: rest =>
      if p c then [] :: splitPL p rest
      else
        match splitPL p rest with
        | [] => [[c]]
        | w :: ws => (c :: w) :: ws

/-- `s.split('\n')`, exactly Python's behaviour (keeps empty pieces). -/
def splitNl (s : String) : List String :=
  (splitPL (· == '\n') s.toList).map List.asString

/-- `str.split()` with no argument: split on whitespace runs, dropping
empty pieces. -/
def pyWords (s : String) : List String :=
  ((splitPL isSpace s.toList).filter (· ≠ [])).map List.asString

/-- Join character lists with a separator (`sep.join(pieces)`). -/
def joinWith (sep : List Char) : List (List Char) → List Char
  | [] => []
  | [x] => x
  | x :: xs => x ++ sep ++ joinWith sep xs

/-- `"\n".join(lines)` on strings. -/
def joinNl (lines : List String) : String :=
  (joinWith ['\n'] (lines.map String.toList)).asString

/-- Number of words of a text, as in `len(text.split())`. -/
def wordCount (s : String) : Nat := (pyWords s).length

/-- Whether `pat` occurs in `l` starting at position `i`. -/
def substrAt (l pat : List Char) (i : Nat) : Bool :=
  pat.isPrefixOf (l.drop i)

/-- Python's `pat in s` substring test, on character lists. -/
def containsSubL (l pat : List Char) : Bool :=
  (List.range (l.length + 1)).any (substrAt l pat)

/-- Python's `pat in s` substring test. -/
def containsSub (s pat : String) : Bool := containsSubL s.toList pat.toList

/-- First index at which `pat` occurs in `l`, Python's `s.find(pat)`
(`none` for `-1`). -/
def findSubL (l pat : List Char) : Option Nat :=
  (List.range (l.length + 1)).find? (substrAt l pat)

/-- `s.find(pat)` as an `Option`. -/
def findSub (s pat : String) : Option Nat := findSubL s.toList pat.toList

/-- `str.lower()` (ASCII case folding; Thai characters are unaffected,
matching Python). -/
def pyLower (s : String) : String := (s.toList.map Char.toLower).asString

/-- `str.upper()` (ASCII case folding). -/
def pyUpper (s : String) : String := (s.toList.map Char.toUpper).asString

/-- Python slicing `s[:n]` (by code points). -/
def pyTake (s : String) (n : Nat) : String := (s.toList.take n).asString

/-- Python slicing `s[n:]` (by code points). -/
def pyDrop (s : String) (n : Nat) : String := (s.toList.drop n).asString

/-- Python slicing `s[-n:]`: the last `min n (len s)` characters. -/
def pyTakeRight (s : String) (n : Nat) : String :=
  (s.toList.drop (s.toList.length - n)).asString

end PyStr

open PyStr

/-! ## Deduplication engine

### `src/utils/safe_dedup.py : safe_deduplicate`

Removes exact duplicate bullets/lines, with a safety ceiling: if more than
`max_removal_percent` of the word count would be removed, the original text is
returned unchanged. -/

namespace SafeDedup

/-- Content of a line for duplicate comparison: the bullet regex
`^-\s+(.+)$` applied to the stripped line; on a match the bullet content
(group 1, stripped), otherwise the stripped line itself. -/
def lineContent (ls : String) : String :=
  match ls.toList with
  | '-' :: c2 :: rest2 =>
      if isSpace c2 then pyStrip ((c2 :: rest2).dropWhile isSpace).asString else ls
  | _ => ls

/-- Loop state of `safe_deduplicate`: `seen` set, kept lines, removed count,
previous kept content, consecutive-repetition counter. -/
structure LoopState where
  seen : List String
  result : List String
  removed : Nat
  prev : Option String
  consec : Nat
deriving Repr, DecidableEq

def initState : LoopState := ⟨[], [], 0, none, 0⟩

/-- One iteration of the `for line in lines` loop of `safe_deduplicate`. -/
def step (st : LoopState) (line : String) : LoopState :=
  let ls := pyStrip line
  if ls = "" then
    { st with result := st.result ++ [line], prev := none, consec := 0 }
  else
    let content := lineContent ls
    let consec := if st.prev = some content then st.consec + 1 else 0
    if st.prev = some content ∧ consec ≥ 2 then
      { st with removed := st.removed + 1, consec := consec }
    else if st.seen.contains content then
      { st with removed := st.removed + 1, consec := consec }
    else
      { seen := st.seen ++ [content], result := st.result ++ [line],
        removed := st.removed, prev := some content, consec := consec }

/-- Result record of `safe_deduplicate` (text plus the stats that matter). -/
structure Result where
  text : String
  applied : Bool
  removedSentences : Nat
  removalPercent : ℚ
deriving Repr

/-- The cleaned text produced by `safe_deduplicate`'s line loop (before the
safety check). -/
def cleanedOf (text : String) : String :=
  joinNl ((splitNl text).foldl step initState).result

/-- The `removed_count` accumulated by `safe_deduplicate`'s line loop. -/
def removedOf (text : String) : Nat :=
  ((splitNl text).foldl step initState).removed

/-- The `removal_percent` statistic of `safe_deduplicate`:
`(original_words - cleaned_words) / original_words` (0 when empty). -/
def removalFraction (text : String) : ℚ :=
  if wordCount text > 0 then
    ((wordCount text : ℚ) - (wordCount (cleanedOf text) : ℚ)) / (wordCount text : ℚ)
  else 0

/-- `safe_deduplicate(text, max_removal_percent)`. -/
def safe_deduplicate (text : String) (maxRemovalPercent : ℚ) : Result :=
  if removalFraction text ≤ maxRemovalPercent then
    ⟨cleanedOf text, true, removedOf text, removalFraction text⟩
  else
    ⟨text, false, removedOf text, removalFraction text⟩

end SafeDedup

/-! ### `src/utils/dedup_marker_processor.py : remove_duplicates`

Strips every line containing the reserved `[DUP]` marker. Note: this mode has
no removal ceiling of any kind. -/

namespace DedupMarker

/-- `remove_duplicates(text)`: drop every line containing `[DUP]`,
returning the cleaned text and the number of removed lines. -/
def remove_duplicates (text : String) : String × Nat :=
  if text = "" then (text, 0)
  else
    let lines := splitNl text
    let kept := lines.filter (fun l => !containsSub l "[DUP]")
    let removed := lines.countP (fun l => containsSub l "[DUP]")
    (joinNl kept, removed)

end DedupMarker

/-! ### Claim C1 -/

/-- Claim C1, as stated, is FALSE: in the marker-based mode
(`remove_duplicates`) there is no maximum-removal ceiling. On the input
`"a [DUP]\nb"` the marker pass removes 2 of the 3 words — i.e. more than any
configured ceiling in the default 10–30% range — and the output differs from
the input instead of being returned unchanged. -/
theorem C1_counterexample :
    (DedupMarker.remove_duplicates "a [DUP]\nb").1 ≠ "a [DUP]\nb" ∧
    ((wordCount "a [DUP]\nb" : ℚ) -
        (wordCount (DedupMarker.remove_duplicates "a [DUP]\nb").1 : ℚ)) /
        (wordCount "a [DUP]\nb" : ℚ) > 3 / 10 := by
  have h1 : (DedupMarker.remove_duplicates "a [DUP]\nb").1 = "b" := by rfl
  have h2 : wordCount "a [DUP]\nb" = 3 := by rfl
  have h3 : wordCount "b" = 1 := by rfl
  rw [h1, h2, h3]
  refine ⟨by decide, by norm_num⟩

/-- Claim C1 (amended): the maximum-removal safety ceiling holds for the
similarity-based mode only. For every text and ceiling `f`, if
`safe_deduplicate`'s pass would remove a fraction of the total word count
greater than `f`, it returns the original input text exactly unchanged (and
reports `applied = false`); the marker-based `remove_duplicates` has no such
ceiling. -/
theorem C1_safe_dedup_ceiling (text : String) (f : ℚ)
    (h : SafeDedup.removalFraction text > f) :
    (SafeDedup.safe_deduplicate text f).text = text ∧
    (SafeDedup.safe_deduplicate text f).applied = false := by
  unfold SafeDedup.safe_deduplicate
  rw [if_neg (not_le.mpr h)]
  exact ⟨rfl, rfl⟩

/-- Witness for `C1_safe_dedup_ceiling`: on `"x y\nx y"` the dedup pass
removes half of the words, which exceeds a ceiling of `1/10`, and the
operation returns the original text. -/
theorem C1_safe_dedup_ceiling_witness :
    (SafeDedup.safe_deduplicate "x y\nx y" (1/10)).text = "x y\nx y" := by
  have h : SafeDedup.removalFraction "x y\nx y" > 1/10 := by
    unfold SafeDedup.removalFraction
    rw [show wordCount "x y\nx y" = 4 from rfl,
      show wordCount (SafeDedup.cleanedOf "x y\nx y") = 2 from rfl]
    norm_num
  exact (C1_safe_dedup_ceiling "x y\nx y" (1/10) h).1

/-! ## Character-level helper lemmas -/

namespace PyStr

theorem toNat_ofNat_valid {n : Nat} (h : n.isValidChar) :
    (Char.ofNat n).toNat = n := by
  unfold Char.ofNat
  rw [dif_pos h]
  rfl

theorem toLower_toLower (c : Char) : c.toLower.toLower = c.toLower := by
  unfold Char.toLower
  by_cases h : c.toNat ≥ 65 ∧ c.toNat ≤ 90
  · rw [if_pos h]
    have hv : (c.toNat + 32).isValidChar := Or.inl (by omega)
    rw [toNat_ofNat_valid hv, if_neg (by omega)]
  · rw [if_neg h, if_neg h]

theorem isSpace_false_of_range {c : Char} (h1 : 65 ≤ c.toNat) (_h2 : c.toNat ≤ 122) :
    isSpace c = false := by
  simp only [isSpace, Bool.or_eq_false_iff, beq_eq_false_iff_ne]
  refine ⟨⟨⟨⟨⟨?_, ?_⟩, ?_⟩, ?_⟩, ?_⟩, ?_⟩ <;>
    exact fun e => absurd (e ▸ h1) (by decide)

theorem isSpace_toLower (c : Char) : isSpace c.toLower = isSpace c := by
  unfold Char.toLower
  by_cases h : c.toNat ≥ 65 ∧ c.toNat ≤ 90
  · rw [if_pos h]
    have hv : (c.toNat + 32).isValidChar := Or.inl (by omega)
    rw [isSpace_false_of_range (c := Char.ofNat (c.toNat + 32))
        (by rw [toNat_ofNat_valid hv]; omega) (by rw [toNat_ofNat_valid hv]; omega),
      isSpace_false_of_range (by omega) (by omega)]
  · rw [if_neg h]

theorem map_toLower_stripL (l : List Char) :
    (stripL l).map Char.toLower = stripL (l.map Char.toLower) := by
  have hdw : ∀ (m : List Char),
      (m.dropWhile isSpace).map Char.toLower = (m.map Char.toLower).dropWhile isSpace := by
    intro m
    induction m with
    | nil => rfl
    | cons c t ih =>
        simp only [List.map_cons, List.dropWhile_cons, isSpace_toLower]
        by_cases hc : isSpace c = true
        · rw [if_pos hc, if_pos hc, ih]
        · rw [if_neg hc, if_neg hc, List.map_cons]
  unfold stripL
  rw [List.map_reverse, hdw, List.map_reverse, hdw]

theorem map_toLower_idem (l : List Char) :
    (l.map Char.toLower).map Char.toLower = l.map Char.toLower := by
  rw [List.map_map]
  exact List.map_congr_left (fun c _ => toLower_toLower c)

/-- `str.lower()` is idempotent on an already lowered-and-stripped key. -/
theorem pyLower_key (m : String) : pyLower (pyStrip (pyLower m)) = pyStrip (pyLower m) := by
  unfold pyLower pyStrip
  simp only [List.asString, String.toList]
  rw [map_toLower_stripL, map_toLower_idem]

end PyStr

/-! ## Entity resolver

### `src/core/data_managers.py : SmartMarketResolver`

The resolver's mutable state is its in-memory alias map (`self.memory`) plus
the persisted alias-cache file. The external fuzzy library `thefuzz` is an
abstract oracle (`extractOne`); when it is absent (`process is None`) the
fuzzy stage is skipped, exactly as in the source. -/

namespace Resolver

/-- Python-dict lookup on an association list. -/
def alook : List (String × String) → String → Option String
  | [], _ => none
  | (k', v') :: rest, k => if k' = k then some v' else alook rest k

/-- Python-dict update (`d[k] = v`): replace in place or append. -/
def aset : List (String × String) → String → String → List (String × String)
  | [], k, v => [(k, v)]
  | (k', v') :: rest, k, v =>
      if k' = k then (k, v) :: rest else (k', v') :: aset rest k v

theorem alook_aset_self (m : List (String × String)) (k v : String) :
    alook (aset m k v) k = some v := by
  induction m with
  | nil => simp [aset, alook]
  | cons p rest ih =>
      obtain ⟨k', v'⟩ := p
      by_cases h : k' = k
      · simp [aset, h, alook]
      · simp [aset, h, alook, ih]

/-- State of a persisted JSON store on disk. -/
inductive FileState (α : Type)
  | missing
  | unparseable
  | content (d : α)
deriving DecidableEq

/-- Mutable state of `SmartMarketResolver`: the in-memory alias map and the
alias-cache file. -/
structure RState where
  memory : List (String × String)
  file : FileState (List (String × String))
deriving DecidableEq

/-- The fuzzy environment: whether `thefuzz` imported, the
`ctx.fuzzy_corpus` alias index, and `process.extractOne` as an oracle
returning the best-scoring corpus key with its similarity score (0–100). -/
structure FuzzEnv where
  hasFuzz : Bool
  fuzzyCorpus : List (String × String)
  extractOne : String → Option (String × Nat)

/-- `mention.lower().strip()` — the key used for every lookup and write. -/
def mentionKey (mention : String) : String := pyStrip (pyLower mention)

/-- `SmartMarketResolver.save_cache`: re-read the cache file (treating a
missing or unparseable file as `{}`), set `mention.lower() -> ticker`, write
it back, and update the in-memory map. -/
def save_cache (s : RState) (mention ticker : String) : RState :=
  let onDisk : List (String × String) :=
    match s.file with
    | .content d => d
    | _ => []
  { memory := aset s.memory (pyLower mention) ticker,
    file := .content (aset onDisk (pyLower mention) ticker) }

/-- `ticker.replace(".BK", "")` on the character list. -/
def removeBKL : List Char → List Char
  | '.' :: 'B' :: 'K' :: rest => removeBKL rest
  | c :: rest => c :: removeBKL rest
  | [] => []

/-- `ticker.replace(".BK", "")`. -/
def removeBK (t : String) : String := (removeBKL t.toList).asString

/-- `re.match(r"^[A-Za-z]+$", mention)`: nonempty, all Latin letters
(`$` also tolerates one trailing newline, as in Python). -/
def isEnglish (mention : String) : Bool :=
  let l := mention.toList
  let l' := if l.getLast? = some '\n' then l.dropLast else l
  !l'.isEmpty && l'.all (fun c => c.isAlpha)

/-- `SmartMarketResolver.resolve`: exact in-memory lookup, then the gated
fuzzy stage. Returns the resolved ticker (or `none` = Unresolved) and the
updated state. -/
def resolve (env : FuzzEnv) (s : RState) (mention : String) : Option String × RState :=
  match alook s.memory (mentionKey mention) with
  | some t => (some t, s)
  | none =>
      if env.hasFuzz then
        match env.extractOne (mentionKey mention) with
        | none => (none, s)
        | some (best, score) =>
            match alook env.fuzzyCorpus best with
            | none => (none, s)
            | some ticker =>
                if (removeBK ticker).length ≤ 3 ∧ score < 100 then (none, s)
                else if isEnglish mention ∧ score < 95 then (none, s)
                else if score ≥ 90 then (some ticker, save_cache s (mentionKey mention) ticker)
                else (none, s)
      else (none, s)

/-- The similarity bound the fuzzy stage requires for a given candidate
ticker and mention: 100 for canonical tickers of ≤ 3 characters, 95 for
pure-Latin mentions, 90 otherwise. -/
def applicableBound (ticker mention : String) : Nat :=
  if (removeBK ticker).length ≤ 3 then 100
  else if isEnglish mention then 95
  else 90

end Resolver

namespace Resolver

/-- Lowering the resolver key is a no-op (it is already lowered). -/
theorem mentionKey_lower (m : String) : pyLower (mentionKey m) = mentionKey m :=
  pyLower_key m

end Resolver

/-! ### Claim C3 -/

/-- Claim C3: on an exact-lookup miss, the fuzzy stage accepts the
best-scoring alias exactly when its score meets the applicable bound — 100
for canonical tickers of at most 3 characters (after removing `.BK`), 95 for
pure-Latin mentions, 90 otherwise; below the applicable bound `resolve`
returns Unresolved (`none`) and leaves the state unchanged. -/
theorem C3_fuzzy_gate (env : Resolver.FuzzEnv) (s : Resolver.RState)
    (m best ticker : String) (score : Nat)
    (hmiss : Resolver.alook s.memory (Resolver.mentionKey m) = none)
    (hf : env.hasFuzz = true)
    (hx : env.extractOne (Resolver.mentionKey m) = some (best, score))
    (hc : Resolver.alook env.fuzzyCorpus best = some ticker)
    (hmax : score ≤ 100) :
    (score < Resolver.applicableBound ticker m →
      Resolver.resolve env s m = (none, s)) ∧
    (Resolver.applicableBound ticker m ≤ score →
      (Resolver.resolve env s m).1 = some ticker) := by
  constructor
  · intro hb
    simp only [Resolver.resolve, hmiss, hf, hx, hc, if_true]
    unfold Resolver.applicableBound at hb
    split_ifs at hb with h3 hE
    · rw [if_pos ⟨h3, hb⟩]
    · rw [if_neg (fun h => h3 h.1), if_pos ⟨hE, hb⟩]
    · rw [if_neg (fun h => h3 h.1), if_neg (fun h => hE h.1),
        if_neg (by omega)]
  · intro hb
    have h90 : 90 ≤ score := by
      refine le_trans ?_ hb
      unfold Resolver.applicableBound
      split_ifs <;> omega
    have hc1 : ¬((Resolver.removeBK ticker).length ≤ 3 ∧ score < 100) := by
      rintro ⟨hlen, hlt⟩
      unfold Resolver.applicableBound at hb
      rw [if_pos hlen] at hb
      omega
    have hc2 : ¬(Resolver.isEnglish m = true ∧ score < 95) := by
      rintro ⟨hEng, hlt⟩
      unfold Resolver.applicableBound at hb
      split_ifs at hb with h3
      · omega
      · omega
    simp only [Resolver.resolve, hmiss, hf, hx, hc, if_true]
    rw [if_neg hc1, if_neg hc2, if_pos h90]

/-- Witness for `C3_fuzzy_gate`: a non-Latin mention whose best fuzzy
candidate `ADVANC.BK` (clean length 6) scores 92, which meets the general
90 bound, is accepted. -/
theorem C3_fuzzy_gate_witness :
    (Resolver.resolve ⟨true, [("advanc", "ADVANC.BK")], fun _ => some ("advanc", 92)⟩
      ⟨[], .missing⟩ "แอดวานซ์").1 = some "ADVANC.BK" :=
  (C3_fuzzy_gate ⟨true, [("advanc", "ADVANC.BK")], fun _ => some ("advanc", 92)⟩
    ⟨[], .missing⟩ "แอดวานซ์" "advanc" "ADVANC.BK" 92
    (by decide) (by decide) (by decide) (by decide) (by decide)).2 (by decide)

/-! ### Claim C7 -/

/-- Claim C7: once `resolve` has returned ticker `T` for a mention (and, on
the fuzzy path, persisted it), any later `resolve` call on the same mention
and resulting state returns `T` through the exact cache lookup with the
state unchanged — for EVERY fuzzy environment `env2`, so the fuzzy stage
cannot influence (and hence does not execute in) the second call. -/
theorem C7_cache_then_exact (env env2 : Resolver.FuzzEnv) (s s' : Resolver.RState)
    (m T : String)
    (h : Resolver.resolve env s m = (some T, s')) :
    Resolver.resolve env2 s' m = (some T, s') := by
  unfold Resolver.resolve at h
  cases hm : Resolver.alook s.memory (Resolver.mentionKey m) with
  | some t =>
      rw [hm] at h
      simp only [Prod.mk.injEq, Option.some.injEq] at h
      obtain ⟨hT, hs⟩ := h
      subst hT
      subst hs
      simp only [Resolver.resolve, hm]
  | none =>
      rw [hm] at h
      simp only at h
      cases hf : env.hasFuzz with
      | false => rw [hf] at h; simp at h
      | true =>
          rw [hf] at h
          simp only [if_true] at h
          cases hx : env.extractOne (Resolver.mentionKey m) with
          | none => rw [hx] at h; simp at h
          | some p =>
              obtain ⟨best, score⟩ := p
              rw [hx] at h
              simp only at h
              cases hcorp : Resolver.alook env.fuzzyCorpus best with
              | none => rw [hcorp] at h; simp at h
              | some ticker =>
                  rw [hcorp] at h
                  simp only at h
                  split_ifs at h with h1 h2 h3
                  · simp at h
                  · simp at h
                  · simp only [Prod.mk.injEq, Option.some.injEq] at h
                    obtain ⟨hT, hs⟩ := h
                    subst hT
                    have hmem : Resolver.alook s'.memory (Resolver.mentionKey m) =
                        some ticker := by
                      rw [← hs]
                      unfold Resolver.save_cache
                      simp only
                      rw [Resolver.mentionKey_lower]
                      exact Resolver.alook_aset_self _ _ _
                    simp only [Resolver.resolve, hmem]
                  · simp at h

/-- Witness for `C7_cache_then_exact`: after a fuzzy-accepted first call has
persisted `ADVANC.BK`, a second call resolves through the cache even in an
environment with no fuzzy library at all. -/
theorem C7_cache_then_exact_witness :
    Resolver.resolve ⟨false, [], fun _ => none⟩
      ⟨[("แอดวานซ์", "ADVANC.BK")], .content [("แอดวานซ์", "ADVANC.BK")]⟩ "แอดวานซ์" =
    (some "ADVANC.BK",
      ⟨[("แอดวานซ์", "ADVANC.BK")], .content [("แอดวานซ์", "ADVANC.BK")]⟩) :=
  C7_cache_then_exact ⟨true, [("advanc", "ADVANC.BK")], fun _ => some ("advanc", 92)⟩
    ⟨false, [], fun _ => none⟩ ⟨[], .missing⟩
    ⟨[("แอดวานซ์", "ADVANC.BK")], .content [("แอดวานซ์", "ADVANC.BK")]⟩
    "แอดวานซ์" "ADVANC.BK" (by decide)

/-! ### Claim C8 -/

/-- Claim C8: `resolve` mutates the alias cache (in-memory map or file) only
when the fuzzy stage accepted a candidate with similarity score at or above
the persistence floor of 90; every other path leaves the state untouched. -/
theorem C8_persistence_floor (env : Resolver.FuzzEnv) (s : Resolver.RState)
    (m : String)
    (h : (Resolver.resolve env s m).2 ≠ s) :
    ∃ best score ticker,
      env.extractOne (Resolver.mentionKey m) = some (best, score) ∧
      90 ≤ score ∧
      Resolver.alook env.fuzzyCorpus best = some ticker ∧
      Resolver.resolve env s m =
        (some ticker, Resolver.save_cache s (Resolver.mentionKey m) ticker) := by
  rcases hm : Resolver.alook s.memory (Resolver.mentionKey m) with _ | t
  case some =>
      exact absurd (by simp only [Resolver.resolve, hm] : (Resolver.resolve env s m).2 = s) h
  case none =>
  rcases hf : env.hasFuzz with _ | _
  case false =>
      exact absurd (by simp [Resolver.resolve, hm, hf] : (Resolver.resolve env s m).2 = s) h
  case true =>
  rcases hx : env.extractOne (Resolver.mentionKey m) with _ | ⟨best, score⟩
  case none =>
      exact absurd (by simp [Resolver.resolve, hm, hf, hx] : (Resolver.resolve env s m).2 = s) h
  case some =>
  rcases hcorp : Resolver.alook env.fuzzyCorpus best with _ | ticker
  case none =>
      exact absurd (by simp [Resolver.resolve, hm, hf, hx, hcorp] :
        (Resolver.resolve env s m).2 = s) h
  case some =>
  by_cases h1 : (Resolver.removeBK ticker).length ≤ 3 ∧ score < 100
  · exact absurd (by simp [Resolver.resolve, hm, hf, hx, hcorp, h1] :
      (Resolver.resolve env s m).2 = s) h
  by_cases h2 : Resolver.isEnglish m = true ∧ score < 95
  · exact absurd (by simp [Resolver.resolve, hm, hf, hx, hcorp, h1, h2] :
      (Resolver.resolve env s m).2 = s) h
  by_cases h3 : score ≥ 90
  · refine ⟨best, score, ticker, rfl, h3, hcorp, ?_⟩
    simp only [Resolver.resolve, hm, hf, hx, hcorp, if_true]
    rw [if_neg h1, if_neg h2, if_pos h3]
  · exact absurd (by simp [Resolver.resolve, hm, hf, hx, hcorp, h1, h2, h3] :
      (Resolver.resolve env s m).2 = s) h

/-- Witness for `C8_persistence_floor`: the fuzzy-accepting run from the C3
witness does change the state, and the floor data exist. -/
theorem C8_persistence_floor_witness :
    ∃ best score ticker,
      (Resolver.FuzzEnv.mk true [("advanc", "ADVANC.BK")]
          (fun _ => some ("advanc", 92))).extractOne
        (Resolver.mentionKey "แอดวานซ์") = some (best, score) ∧
      90 ≤ score ∧
      Resolver.alook [("advanc", "ADVANC.BK")] best = some ticker ∧
      Resolver.resolve ⟨true, [("advanc", "ADVANC.BK")], fun _ => some ("advanc", 92)⟩
          ⟨[], .missing⟩ "แอดวานซ์" =
        (some ticker,
          Resolver.save_cache ⟨[], .missing⟩ (Resolver.mentionKey "แอดวานซ์") ticker) :=
  C8_persistence_floor ⟨true, [("advanc", "ADVANC.BK")], fun _ => some ("advanc", 92)⟩
    ⟨[], .missing⟩ "แอดวานซ์" (by decide)

/-! ## Market cache

### `src/utils/market_cache.py : MarketDataCache`

A persistent `(ticker, date)`-keyed store with lazy TTL invalidation. Time is
modelled as integer seconds (`datetime.now()` is the `now` parameter). -/

namespace MarketCache

/-- The price payload cached per `(ticker, date)` (shape written by
`market_validator_node`). -/
structure PriceData where
  marketPrice : ℚ
  low : ℚ
  high : ℚ
deriving DecidableEq, Repr

/-- One cache entry: payload plus the `timestamp` written at `set` time
(`none` models a hand-edited entry missing the key). -/
structure Entry where
  data : PriceData
  timestamp : Option Int
deriving DecidableEq, Repr

/-- Python-dict lookup on an association list of entries. -/
def elook : List (String × Entry) → String → Option Entry
  | [], _ => none
  | (k', v') :: rest, k => if k' = k then some v' else elook rest k

/-- Python-dict update (`d[k] = v`). -/
def eset : List (String × Entry) → String → Entry → List (String × Entry)
  | [], k, v => [(k, v)]
  | (k', v') :: rest, k, v =>
      if k' = k then (k, v) :: rest else (k', v') :: eset rest k v

/-- Python-dict deletion (`del d[k]`). -/
def eerase (m : List (String × Entry)) (k : String) : List (String × Entry) :=
  m.filter (fun p => p.1 ≠ k)

/-- In-memory cache plus the persisted file contents. -/
structure CState where
  cache : List (String × Entry)
  file : List (String × Entry)
deriving DecidableEq

/-- `_generate_key(ticker, date) = f"{ticker}_{date}"`. -/
def genKey (ticker date : String) : String := ticker ++ "_" ++ date

/-- `_is_expired(entry)`: no timestamp, or age strictly above the TTL. -/
def isExpired (ttl now : Int) (e : Entry) : Bool :=
  match e.timestamp with
  | none => true
  | some ts => now - ts > ttl

/-- `MarketDataCache.get(ticker, date)`: a stale or timestamp-less hit is
deleted and the file rewritten (`_save_cache` dumps the in-memory cache);
a miss or a fresh hit leaves all state unchanged. -/
def get (ttl now : Int) (s : CState) (ticker date : String) :
    Option PriceData × CState :=
  match elook s.cache (genKey ticker date) with
  | none => (none, s)
  | some e =>
      if isExpired ttl now e then
        (none, ⟨eerase s.cache (genKey ticker date), eerase s.cache (genKey ticker date)⟩)
      else (some e.data, s)

/-- `MarketDataCache.set(ticker, date, data)`: store with the current
timestamp and persist. -/
def set (now : Int) (s : CState) (ticker date : String) (d : PriceData) : CState :=
  let cache' := eset s.cache (genKey ticker date) ⟨d, some now⟩
  ⟨cache', cache'⟩

/-- `MarketDataCache._load_cache()`: contents when the file parses, `{}`
when the file is missing — and also `{}` when the file exists but cannot be
parsed (`except: return {}`). -/
def load (file : Resolver.FileState (List (String × Entry))) : List (String × Entry) :=
  match file with
  | .content d => d
  | _ => []

end MarketCache

namespace Resolver

/-- `SmartMarketResolver.__init__`'s cache merge: `self.memory.update(json.load(f))`
when the file parses; a missing file — and likewise an unparseable one
(`except: pass`) — leaves the seeded memory untouched. -/
def initMemory (base : List (String × String))
    (file : FileState (List (String × String))) : List (String × String) :=
  match file with
  | .content d => d.foldl (fun acc p => aset acc p.1 p.2) base
  | _ => base

end Resolver

/-! ### Claim C9 -/

/-- Claim C9, as stated, is FALSE: loading an existing-but-unparseable store
does not surface a distinguishable fatal error. `MarketDataCache._load_cache`
returns the empty store, bit-for-bit the same result as for a missing file,
and `SmartMarketResolver.__init__` silently keeps its seeded memory. -/
theorem C9_counterexample :
    MarketCache.load Resolver.FileState.unparseable = [] ∧
    MarketCache.load Resolver.FileState.unparseable =
      MarketCache.load Resolver.FileState.missing ∧
    Resolver.initMemory [("ptt", "PTT.BK")] Resolver.FileState.unparseable =
      Resolver.initMemory [("ptt", "PTT.BK")] Resolver.FileState.missing :=
  ⟨rfl, rfl, rfl⟩

/-- Claim C9 (amended): when a persisted store's file exists but its contents
cannot be parsed, loading silently degrades — `MarketDataCache` starts from
an empty store and `SmartMarketResolver` keeps only its seeded memory —
indistinguishable from the missing-file case; no fatal error is surfaced. -/
theorem C9_silent_empty_load (base : List (String × String))
    (entries : List (String × MarketCache.Entry)) :
    MarketCache.load Resolver.FileState.unparseable = [] ∧
    Resolver.initMemory base Resolver.FileState.unparseable = base ∧
    MarketCache.load (Resolver.FileState.content entries) = entries :=
  ⟨rfl, rfl, rfl⟩

/-! ### Claim C10 -/

/-- Claim C10: `MarketDataCache.get` is not read-only. A hit whose age
exceeds the TTL — or that lacks a timestamp — is deleted from the in-memory
store and the persisted file is immediately rewritten (to the erased store)
before returning absent; a miss or a fresh hit leaves both the store and the
file unchanged, returning the entry's data on a fresh hit. -/
theorem C10_get_frame (ttl now : Int) (s : MarketCache.CState) (ticker date : String) :
    (MarketCache.elook s.cache (MarketCache.genKey ticker date) = none →
      MarketCache.get ttl now s ticker date = (none, s)) ∧
    (∀ e, MarketCache.elook s.cache (MarketCache.genKey ticker date) = some e →
      (e.timestamp = none → MarketCache.isExpired ttl now e = true) ∧
      (∀ ts, e.timestamp = some ts →
        (MarketCache.isExpired ttl now e = true ↔ now - ts > ttl)) ∧
      (MarketCache.isExpired ttl now e = true →
        MarketCache.get ttl now s ticker date =
          (none, ⟨MarketCache.eerase s.cache (MarketCache.genKey ticker date),
                  MarketCache.eerase s.cache (MarketCache.genKey ticker date)⟩)) ∧
      (MarketCache.isExpired ttl now e = false →
        MarketCache.get ttl now s ticker date = (some e.data, s))) := by
  constructor
  · intro hmiss
    simp only [MarketCache.get, hmiss]
  · intro e he
    refine ⟨?_, ?_, ?_, ?_⟩
    · intro hts
      simp only [MarketCache.isExpired, hts]
    · intro ts hts
      simp only [MarketCache.isExpired, hts]
      exact decide_eq_true_iff
    · intro hexp
      simp only [MarketCache.get, he, hexp, if_true]
    · intro hfresh
      simp only [MarketCache.get, he, hfresh]
      rw [if_neg (by simp [hfresh])]

/-- Witness for `C10_get_frame`: an expired entry (age 90000 s > TTL 86400 s)
is purged from store and file and `get` returns absent. -/
theorem C10_get_frame_witness :
    MarketCache.get 86400 100000
      ⟨[("PTT_2025-12-24", ⟨⟨35, 34, 36⟩, some 10000⟩)],
       [("PTT_2025-12-24", ⟨⟨35, 34, 36⟩, some 10000⟩)]⟩ "PTT" "2025-12-24" =
      (none, ⟨[], []⟩) := by
  have h := ((C10_get_frame 86400 100000
      ⟨[("PTT_2025-12-24", ⟨⟨35, 34, 36⟩, some 10000⟩)],
       [("PTT_2025-12-24", ⟨⟨35, 34, 36⟩, some 10000⟩)]⟩ "PTT" "2025-12-24").2
      ⟨⟨35, 34, 36⟩, some 10000⟩ (by decide)).2.2.1 (by decide)
  exact h.trans (by decide)

/-! ## Price plausibility

### `src/validation/fact_checker.py : CleanFactChecker.validate_against_market`

Only the comparison logic is modelled; the `yfinance` fetch supplies the
`Cached` record (`{'low', 'high', 'close'}`; `close` can be `None` per the
source). Prices are `ℚ`. -/

namespace FactChecker

/-- The cached market range consulted by `validate_against_market`. -/
structure Cached where
  low : ℚ
  high : ℚ
  close : Option ℚ
deriving DecidableEq

/-- The returned verdict: `ok plausible confidence market_price deviation`,
or `unknown error` for the `plausible: None` returns. -/
inductive Verdict
  | ok (isPlausible : Bool) (confidence : String) (marketPrice : Option ℚ) (deviation : ℚ)
  | unknown (error : String)
deriving DecidableEq

/-- `validate_against_market`'s comparison: inside the day's `[low, high]`
range → plausible with high confidence; otherwise, with a truthy close,
deviation below `tolerance` → plausible with medium confidence, else
implausible; no (or zero) close → unknown. -/
def validate_against_market (cached : Cached) (price tolerance : ℚ) : Verdict :=
  if cached.low ≤ price ∧ price ≤ cached.high then
    match cached.close with
    | some c =>
        if c ≠ 0 then .ok true "high" (some c) (|price - c| / c)
        else .ok true "high" (some c) 0
    | none => .ok true "high" none 0
  else
    match cached.close with
    | some c =>
        if c ≠ 0 then
          if |price - c| / c < tolerance then .ok true "medium" (some c) (|price - c| / c)
          else .ok false "low" (some c) (|price - c| / c)
        else .unknown "No closing price available"
    | none => .unknown "No closing price available"

end FactChecker

/-! ### Claim C6 -/

/-- Claim C6: with market data available (a nonzero close), a stated price
inside the day's `[low, high]` is plausible with high confidence; outside the
range but deviating from the close by less than the tolerance it is plausible
with medium confidence; any other stated price is implausible
(`plausible = false`). The function only reports a verdict — it never
rewrites any text. -/
theorem C6_price_plausibility (cached : FactChecker.Cached) (price tol c : ℚ)
    (hc : cached.close = some c) (hc0 : c ≠ 0) :
    (cached.low ≤ price ∧ price ≤ cached.high →
      FactChecker.validate_against_market cached price tol =
        .ok true "high" (some c) (|price - c| / c)) ∧
    (¬(cached.low ≤ price ∧ price ≤ cached.high) →
      (|price - c| / c < tol →
        FactChecker.validate_against_market cached price tol =
          .ok true "medium" (some c) (|price - c| / c)) ∧
      (¬(|price - c| / c < tol) →
        FactChecker.validate_against_market cached price tol =
          .ok false "low" (some c) (|price - c| / c))) := by
  constructor
  · intro hin
    simp only [FactChecker.validate_against_market, if_pos hin, hc]
    rw [if_pos hc0]
  · intro hout
    constructor
    · intro hdev
      simp only [FactChecker.validate_against_market, if_neg hout, hc]
      rw [if_pos hc0, if_pos hdev]
    · intro hdev
      simp only [FactChecker.validate_against_market, if_neg hout, hc]
      rw [if_pos hc0, if_neg hdev]

/-- Witness for `C6_price_plausibility`: the spec's own example. With range
`{low: 100, high: 110}` and close 105, a stated 105 is plausible with high
confidence, and a stated 200 (deviation ≈ 90% ≥ 20%) is implausible. -/
theorem C6_price_plausibility_witness :
    FactChecker.validate_against_market ⟨100, 110, some 105⟩ 105 (20/100) =
      .ok true "high" (some 105) (|(105 : ℚ) - 105| / 105) ∧
    FactChecker.validate_against_market ⟨100, 110, some 105⟩ 200 (20/100) =
      .ok false "low" (some 105) (|(200 : ℚ) - 105| / 105) :=
  ⟨(C6_price_plausibility ⟨100, 110, some 105⟩ 105 (20/100) 105 rfl
      (by norm_num)).1 (by norm_num),
    ((C6_price_plausibility ⟨100, 110, some 105⟩ 200 (20/100) 105 rfl
      (by norm_num)).2 (by norm_num)).2 (by norm_num)⟩

/-! ## Context-aware resolver

### `src/utils/context_aware_resolver.py : ContextAwareResolver`

The indicator regexes (`\b…\b` alternations with `re.IGNORECASE`) are
modelled exactly, including Python's `\b` semantics over Thai text: a word
character is an ASCII alphanumeric, `_`, or a Thai letter/digit (Unicode
categories Lo/Lm/Nd in the Thai block; combining marks are not word
characters). -/

namespace CtxResolver

/-- Python `re` word characters over the alphabet this system uses:
ASCII alphanumerics, underscore, and Thai letters/digits. -/
def isWordChar (c : Char) : Bool :=
  c.isAlphanum || c == '_' ||
    (let n := c.toNat
     (0x0E01 ≤ n && n ≤ 0x0E30) || n == 0x0E32 || n == 0x0E33 ||
       (0x0E40 ≤ n && n ≤ 0x0E46) || (0x0E50 ≤ n && n ≤ 0x0E59))

/-- Whether the character at index `i` (if any) is a word character. -/
def wordAt (l : List Char) (i : Nat) : Bool :=
  match l.drop i with
  | c :: _ => isWordChar c
  | [] => false

/-- Python's `\b`: positions where word-ness changes (out of range counts
as non-word). -/
def boundary (l : List Char) (p : Nat) : Bool :=
  (if p = 0 then false else wordAt l (p - 1)) != wordAt l p

/-- Pattern tokens: a literal run, or `\s*`. -/
inductive PatTok
  | lit (cs : List Char)
  | ws

/-- Case-insensitive literal match of `cs` at index `i`. -/
def litAt (l : List Char) (cs : List Char) (i : Nat) : Bool :=
  ((l.drop i).take cs.length).map Char.toLower == cs.map Char.toLower

/-- Length of the whitespace run at index `i`. -/
def wsRun (l : List Char) (i : Nat) : Nat :=
  ((l.drop i).takeWhile isSpace).length

/-- Match a token sequence starting at `i`; returns the end index.
(`\s*` is greedy; every following literal here starts with a non-space
character, so greedy matching is exact.) -/
def matchToksEnd (l : List Char) : List PatTok → Nat → Option Nat
  | [], i => some i
  | .lit cs :: rest, i =>
      if litAt l cs i then matchToksEnd l rest (i + cs.length) else none
  | .ws :: rest, i => matchToksEnd l rest (i + wsRun l i)

/-- Whether the `\b`-anchored alternative `toks` matches at index `i`. -/
def patMatchAt (l : List Char) (toks : List PatTok) (i : Nat) : Bool :=
  boundary l i &&
    (match matchToksEnd l toks i with
     | some j => boundary l j
     | none => false)

/-- `pattern.search(context)` for an alternation of `\b…\b` alternatives. -/
def patSearch (l : List Char) (pats : List (List PatTok)) : Bool :=
  (List.range (l.length + 1)).any (fun i => pats.any (fun p => patMatchAt l p i))

/-- Shorthand for a literal token. -/
def lit (s : String) : PatTok := .lit s.toList

/-- `self.fund_indicators`. -/
def fundPats : List (List PatTok) :=
  [[lit "กองทุน"], [lit "mutual", .ws, lit "fund"], [lit "fund"],
   [lit "กองทุนรวม"], [lit "กองทุนเปิด"], [lit "กองทุนปิด"]]

/-- `self.stock_indicators`. -/
def stockPats : List (List PatTok) :=
  [[lit "หุ้น"], [lit "stock"], [lit "share"], [lit "หุ้นสามัญ"],
   [lit "หุ้นบุริมสิทธิ"]]

/-- `self.index_indicators`. -/
def indexPats : List (List PatTok) :=
  [[lit "index"], [lit "ดัชนี"], [lit "SET", .ws, lit "Index"],
   [lit "SET", .ws, lit "50"], [lit "SET", .ws, lit "100"]]

/-- `ContextAwareResolver.detect_entity_type(entity, context)`. -/
def detect_entity_type (knownFunds : List (String × String))
    (entity context : String) : String :=
  if patSearch context.toList fundPats ∧ containsSub (pyLower context) "กองทุน" then
    "fund"
  else if patSearch context.toList stockPats then "stock"
  else if patSearch context.toList indexPats ∨
      (pyLower entity) ∈ ["set", "set index", "dow jones", "nasdaq", "s&p 500"] then
    "index"
  else if (Resolver.alook knownFunds (pyUpper entity)).isSome then
    (if containsSub (pyLower context) "กองทุน" then "fund" else "stock")
  else "unknown"

/-- The instance state of `ContextAwareResolver`: the loaded `known_funds`
map (upper-cased key → canonical), the optional finance-terms data, whether a
`StockContextManager` was injected, and — for the stock branch — the
freshly constructed `SmartMarketResolver`'s `resolve` as a function. -/
structure CtxEnv where
  knownFunds : List (String × String)
  termMgr : Option (List (String × List (String × List String)))
  hasStockCtx : Bool
  smResolve : String → Option String

/-- The returned resolution dict. -/
structure Resolution where
  original : String
  resolved : String
  type : String
  confidence : ℚ
  context : String

/-- `re.search(re.escape(entity), text, re.IGNORECASE)` — first match start. -/
def findCI (text entity : String) : Option Nat :=
  findSubL (text.toList.map Char.toLower) (entity.toList.map Char.toLower)

/-- The context window `text[max(0, pos-200) : min(len, pos+len(entity)+200)]`. -/
def contextOf (text entity : String) (position : Nat) : String :=
  let start := position - 200
  let stop := min text.toList.length (position + entity.toList.length + 200)
  ((text.toList.drop start).take (stop - start)).asString

/-- Lookup in the finance-terms data: first canonical whose name or alias
list matches the entity case-insensitively. -/
def findInTerms (data : List (String × List (String × List String)))
    (entity : String) : Option String :=
  data.findSome? (fun cat =>
    cat.2.findSome? (fun cm =>
      if pyLower entity = pyLower cm.1 ∨ (cm.2.map pyLower).contains (pyLower entity)
      then some cm.1 else none))

/-- `ContextAwareResolver.resolve_with_context(entity, text, position)`. -/
def resolve_with_context (env : CtxEnv) (entity text : String)
    (position : Option Nat) : Option Resolution :=
  if pyStrip entity = "" then none
  else
    match (match position with
           | some p => some p
           | none => findCI text entity) with
    | none => none
    | some pos =>
        let context := contextOf text entity pos
        let etype := detect_entity_type env.knownFunds entity context
        if etype = "fund" then
          match Resolver.alook env.knownFunds (pyUpper entity) with
          | some canonical => some ⟨entity, canonical, "fund", 1, context⟩
          | none => some ⟨entity, entity, "fund", 9/10, context⟩
        else if etype = "stock" then
          if env.hasStockCtx then
            match env.smResolve entity with
            | some ticker => some ⟨entity, Resolver.removeBK ticker, "stock", 9/10, context⟩
            | none => some ⟨entity, entity, "stock", 1/2, context⟩
          else some ⟨entity, entity, "stock", 1/2, context⟩
        else if etype = "index" then
          match (match env.termMgr with
                 | none => none
                 | some data => findInTerms data entity) with
          | some canonical => some ⟨entity, canonical, "index", 9/10, context⟩
          | none => some ⟨entity, entity, "index", 7/10, context⟩
        else some ⟨entity, entity, "unknown", 3/10, context⟩

end CtxResolver

/-! ### Claim C2 -/

/-- Claim C2, as stated, is FALSE: a context containing the fund indicator
`fund` (an entry of `self.fund_indicators`, matched by `fund_pattern`)
without the Thai word `กองทุน` is NOT classified as Fund — the double-check
`'กองทุน' in context_lower` fails and the resolver falls through, here to
`unknown`. -/
theorem C2_counterexample :
    CtxResolver.patSearch "the fund ABC is good".toList CtxResolver.fundPats = true ∧
    (CtxResolver.resolve_with_context
        ⟨[("THAI ESG", "THAI ESG"), ("KKP", "KKP")], none, true, fun _ => some "TISCO.BK"⟩
        "ABC" "the fund ABC is good" (some 9)).map CtxResolver.Resolution.type =
      some "unknown" :=
  ⟨by decide, by decide⟩

/-- Claim C2 (amended): for every mention whose context window contains the
Thai fund indicator `กองทุน` (with `fund_pattern` matching the window),
`resolve_with_context` classifies the mention as Fund and returns the
mention itself — or its known canonical fund name — and the result is
independent of the stock resolver, which therefore never runs on this
path. -/
theorem C2_fund_precedence (env : CtxResolver.CtxEnv) (entity text : String) (p : Nat)
    (hne : pyStrip entity ≠ "")
    (hfund : CtxResolver.patSearch (CtxResolver.contextOf text entity p).toList
        CtxResolver.fundPats = true)
    (hthai : containsSub (pyLower (CtxResolver.contextOf text entity p)) "กองทุน" = true) :
    (∃ r, CtxResolver.resolve_with_context env entity text (some p) = some r ∧
      r.type = "fund" ∧
      (Resolver.alook env.knownFunds (pyUpper entity) = some r.resolved ∨
        (Resolver.alook env.knownFunds (pyUpper entity) = none ∧ r.resolved = entity))) ∧
    (∀ f : String → Option String,
      CtxResolver.resolve_with_context ⟨env.knownFunds, env.termMgr, env.hasStockCtx, f⟩
          entity text (some p) =
        CtxResolver.resolve_with_context env entity text (some p)) := by
  have hdet : CtxResolver.detect_entity_type env.knownFunds entity
      (CtxResolver.contextOf text entity p) = "fund" := by
    unfold CtxResolver.detect_entity_type
    rw [if_pos ⟨hfund, hthai⟩]
  constructor
  · rcases halk : Resolver.alook env.knownFunds (pyUpper entity) with _ | canonical
    · refine ⟨⟨entity, entity, "fund", 9/10, CtxResolver.contextOf text entity p⟩, ?_, rfl,
        Or.inr ⟨rfl, rfl⟩⟩
      simp only [CtxResolver.resolve_with_context, if_neg hne, hdet, halk,
        reduceIte]
    · refine ⟨⟨entity, canonical, "fund", 1, CtxResolver.contextOf text entity p⟩, ?_, rfl,
        Or.inl rfl⟩
      simp only [CtxResolver.resolve_with_context, if_neg hne, hdet, halk,
        reduceIte]
  · intro f
    simp only [CtxResolver.resolve_with_context, if_neg hne, hdet, reduceIte]

/-- Witness for `C2_fund_precedence`: the spec's own example — `THAI ESG`
inside `กองทุน THAI ESG น่าสนใจ` resolves as a Fund to its canonical fund
name, even though the injected stock resolver would have offered the
unrelated ticker `TISCO.BK`. -/
theorem C2_fund_precedence_witness :
    ∃ r, CtxResolver.resolve_with_context
        ⟨[("THAI ESG", "THAI ESG"), ("KKP", "KKP")], none, true, fun _ => some "TISCO.BK"⟩
        "THAI ESG" "กองทุน THAI ESG น่าสนใจ" (some 7) = some r ∧
      r.type = "fund" ∧ r.resolved = "THAI ESG" := by
  obtain ⟨⟨r, hr, htype, hres⟩, -⟩ := C2_fund_precedence
    ⟨[("THAI ESG", "THAI ESG"), ("KKP", "KKP")], none, true, fun _ => some "TISCO.BK"⟩
    "THAI ESG" "กองทุน THAI ESG น่าสนใจ" 7 (by decide) (by decide) (by decide)
  refine ⟨r, hr, htype, ?_⟩
  have hl : Resolver.alook [("THAI ESG", "THAI ESG"), ("KKP", "KKP")]
      (pyUpper "THAI ESG") = some "THAI ESG" := by decide
  rcases hres with h | h
  · rw [hl] at h
    exact (Option.some.inj h).symm
  · rw [hl] at h
    exact Option.noConfusion h.1

/-! ## Chunk merger

### `difflib.SequenceMatcher` (used by `merge_transcriptions`)

A faithful executable reimplementation: `find_longest_match` with the
autojunk "popular element" rule (active only when `len(b) ≥ 200`), recursive
matching-block accumulation, and `ratio = 2*M/(len(a)+len(b))`. Loops carry
explicit fuel so every definition reduces in the kernel; the fuel bounds are
the loops' own termination measures, so they are never exhausted. -/

namespace SeqMatcher

/-- `l[i]` with a default (all uses are bounds-guarded). -/
def charAt (l : List Char) (i : Nat) : Char := l.getD i ' '

def nlook : List (Nat × Nat) → Nat → Option Nat
  | [], _ => none
  | (k', v') :: rest, k => if k' = k then some v' else nlook rest k

def nset : List (Nat × Nat) → Nat → Nat → List (Nat × Nat)
  | [], k, v => [(k, v)]
  | (k', v') :: rest, k, v =>
      if k' = k then (k, v) :: rest else (k', v') :: nset rest k v

/-- Autojunk: with `len(b) ≥ 200`, elements occurring more than
`len(b)//100 + 1` times are "popular" and dropped from the index. -/
def isPopular (b : List Char) (c : Char) : Bool :=
  b.length ≥ 200 && b.count c > b.length / 100 + 1

/-- `b2j[c]`: ascending indices of `c` in `b` (popular elements removed). -/
def b2j (b : List Char) (c : Char) : List Nat :=
  if isPopular b c then []
  else (List.range b.length).filter (fun j => charAt b j == c)

/-- The inner `for j in b2j[a[i]]` loop of `find_longest_match`:
`continue` below `blo`, `break` at `bhi`, extend runs via the previous
row `j2len`, track the best block. -/
def innerLoop (blo bhi i : Nat) (j2len : List (Nat × Nat)) :
    List Nat → List (Nat × Nat) → Nat × Nat × Nat →
      List (Nat × Nat) × (Nat × Nat × Nat)
  | [], acc, best => (acc, best)
  | j :: js, acc, best =>
      if j < blo then innerLoop blo bhi i j2len js acc best
      else if j ≥ bhi then (acc, best)
      else
        let k := (if j = 0 then 0 else (nlook j2len (j - 1)).getD 0) + 1
        let acc' := nset acc j k
        let best' := if k > best.2.2 then (i + 1 - k, j + 1 - k, k) else best
        innerLoop blo bhi i j2len js acc' best'

/-- Front extension loop (the two `while besti > alo and bestj > blo …`
loops, parameterised on the junk condition). Fuel is `bi`, its exact
decrease measure. -/
def extFront (a b : List Char) (alo blo : Nat) (cond : Char → Bool) :
    Nat → Nat → Nat → Nat → Nat × Nat × Nat
  | 0, bi, bj, bs => (bi, bj, bs)
  | fuel + 1, bi, bj, bs =>
      if bi > alo ∧ bj > blo ∧ cond (charAt b (bj - 1)) ∧
          charAt a (bi - 1) == charAt b (bj - 1) then
        extFront a b alo blo cond fuel (bi - 1) (bj - 1) (bs + 1)
      else (bi, bj, bs)

/-- Back extension loop (`while besti+bestsize < ahi …`). Fuel is
`ahi - (bi+bs)`. -/
def extBack (a b : List Char) (ahi bhi : Nat) (cond : Char → Bool) (bi bj : Nat) :
    Nat → Nat → Nat
  | 0, bs => bs
  | fuel + 1, bs =>
      if bi + bs < ahi ∧ bj + bs < bhi ∧ cond (charAt b (bj + bs)) ∧
          charAt a (bi + bs) == charAt b (bj + bs) then
        extBack a b ahi bhi cond bi bj fuel (bs + 1)
      else bs

/-- `self.bjunk.__contains__`: the user junk set. The merger always
constructs `SequenceMatcher(None, anchor_sent, next_sent)`, so `isjunk` is
`None` and `bjunk` is empty — autojunk popularity only prunes `b2j`, it
never enters `bjunk`. -/
def isBJunk (_c : Char) : Bool := false

/-- `find_longest_match(alo, ahi, blo, bhi)`: the dynamic-programming scan,
then the non-junk extension in both directions (which, with an empty
`bjunk`, extends through any equal characters, popular ones included),
then the junk extension (a no-op for an empty `bjunk`). -/
def flm (a b : List Char) (alo ahi blo bhi : Nat) : Nat × Nat × Nat :=
  let step := fun (st : List (Nat × Nat) × (Nat × Nat × Nat)) (i : Nat) =>
    innerLoop blo bhi i st.1 (b2j b (charAt a i)) [] st.2
  let r := (List.range' alo (ahi - alo)).foldl step ([], (alo, blo, 0))
  let bi0 := r.2.1
  let bj0 := r.2.2.1
  let bs0 := r.2.2.2
  let e1 := extFront a b alo blo (fun c => !isBJunk c) bi0 bi0 bj0 bs0
  let bs2 := extBack a b ahi bhi (fun c => !isBJunk c) e1.1 e1.2.1
    (ahi - (e1.1 + e1.2.2)) e1.2.2
  let e3 := extFront a b alo blo (fun c => isBJunk c) e1.1 e1.1 e1.2.1 bs2
  let bs4 := extBack a b ahi bhi (fun c => isBJunk c) e3.1 e3.2.1
    (ahi - (e3.1 + e3.2.2)) e3.2.2
  (e3.1, e3.2.1, bs4)

/-- Total size of all matching blocks (`get_matching_blocks` summed),
computed by the standard divide-and-conquer around the longest match. The
fuel `(ahi-alo)+(bhi-bhi')…` bound `a.length + b.length + 1` dominates the
recursion depth. -/
def matchingSize (a b : List Char) : Nat → Nat → Nat → Nat → Nat → Nat
  | 0, _, _, _, _ => 0
  | fuel + 1, alo, ahi, blo, bhi =>
      let r := flm a b alo ahi blo bhi
      if r.2.2 = 0 then 0
      else
        matchingSize a b fuel alo r.1 blo r.2.1 + r.2.2 +
          matchingSize a b fuel (r.1 + r.2.2) ahi (r.2.1 + r.2.2) bhi

/-- `M = sum of matching block sizes` over the whole strings. -/
def matchesTotal (a b : List Char) : Nat :=
  matchingSize a b (a.length + b.length + 1) 0 a.length 0 b.length

/-- `SequenceMatcher(None, a, b).ratio()`. -/
def ratioL (a b : List Char) : ℚ :=
  if a.length + b.length = 0 then 1
  else mkRat (2 * matchesTotal a b) (a.length + b.length)

/-- `ratio` on strings. -/
def ratioS (s1 s2 : String) : ℚ := ratioL s1.toList s2.toList

end SeqMatcher

/-! ### `src/utils/text_deduplication.py : split_sentences_smart`

With the default `SENTENCE_SPLIT_STRATEGY = "newline"` from `config.py`.
`pythainlp`'s `sent_tokenize` is an abstract parameter (`none` when the
library is absent). -/

namespace Merge

/-- `re.split(r'\s{2,}', line)`: split at runs of two or more whitespace
characters (single whitespace stays inside pieces). Fuel = list length. -/
def splitWs2F : Nat → List Char → List Char → List (List Char)
  | 0, _, acc => [acc.reverse]
  | _ + 1, [], acc => [acc.reverse]
  | fuel + 1, c :: rest, acc =>
      if isSpace c then
        match rest with
        | [] => [(c :: acc).reverse]
        | c2 :: rest2 =>
            if isSpace c2 then acc.reverse :: splitWs2F fuel (rest2.dropWhile isSpace) []
            else splitWs2F fuel rest (c :: acc)
      else splitWs2F fuel rest (c :: acc)

def splitWs2 (l : List Char) : List (List Char) := splitWs2F (l.length + 1) l []

/-- `split_sentences_smart(text)` under the `"newline"` strategy:
strip-and-keep nonempty lines; tokenize lines over 100 chars when
`pythainlp` is present; split lines over 200 chars at double spaces
otherwise; keep the line whole else. -/
def split_sentences_smart (thaiTok : Option (String → List String))
    (text : String) : List String :=
  if (stripL text.toList).isEmpty then []
  else
    ((((splitPL (· == '\n') text.toList).map stripL).filter
        (fun l => !l.isEmpty)).map (fun line =>
      match thaiTok with
      | some tok => if line.length > 100 then tok line.asString else [line.asString]
      | none =>
          if line.length > 200 then
            (((splitWs2 line).map stripL).filter (fun p => !p.isEmpty)).map List.asString
          else [line.asString])).flatten

/-- `re.sub(r"\s+", " ", s)` — collapse whitespace runs into single
spaces (state = "previous output char was a collapsed space"). -/
def collapseWsA : List Char → Bool → List Char
  | [], _ => []
  | c :: rest, prevSpace =>
      if isSpace c then
        if prevSpace then collapseWsA rest true
        else ' ' :: collapseWsA rest true
      else c :: collapseWsA rest false

/-- `re.sub(r"\s+", " ", s).strip()` — the merger's final cleanup. -/
def normWs (s : String) : String :=
  (stripL (collapseWsA s.toList false)).asString

/-- The environment of `merge_transcriptions`: the optional `pythainlp`
tokenizer and the configured `DEDUP_MERGE_OVERLAP_THRESHOLD`
(default 0.70). -/
structure MergeEnv where
  thaiTok : Option (String → List String)
  threshold : ℚ

/-- All `(anchor_idx, sentence_index)` pairs in loop order. -/
def pairIdx (bs ns : List String) : List (Nat × Nat) :=
  (List.range bs.length).flatMap
    (fun ai => (List.range ns.length).map (fun j => (ai, j)))

/-- The double loop locating the best-scoring sentence pair: starts at
`highest_ratio = threshold`, updates on strictly greater ratios; returns
`none` when nothing ever exceeded the threshold (`best_match_index = -1`). -/
def fbStep (bs ns : List String) (st : ℚ × Option (Nat × Nat)) (p : Nat × Nat) :
    ℚ × Option (Nat × Nat) :=
  if SeqMatcher.ratioS (bs.getD p.1 "") (ns.getD p.2 "") > st.1 then
    (SeqMatcher.ratioS (bs.getD p.1 "") (ns.getD p.2 ""), some p)
  else st

def findBest (θ : ℚ) (bs ns : List String) : Option (Nat × Nat) :=
  ((pairIdx bs ns).foldl (fbStep bs ns) (θ, none)).2

/-- The last `min 3 |ps|` sentences of the accumulated tail window. -/
def boundSents (ps : List String) : List String :=
  ps.drop (ps.length - min 3 ps.length)

/-- One iteration of `merge_transcriptions`' loop: merge the next chunk
into the accumulated text. -/
def mergeStep (env : MergeEnv) (prev nextRaw : String) : String :=
  let next := pyStrip nextRaw
  if next = "" then prev
  else
    let ps := split_sentences_smart env.thaiTok (pyTakeRight prev 1500)
    let ns := split_sentences_smart env.thaiTok (pyTake next 1500)
    if ps.isEmpty || ns.isEmpty then prev ++ " " ++ next
    else
      match findBest env.threshold (boundSents ps) ns with
      | some (_, j) =>
          if j + 1 < ns.length then
            match findSub next (ns.getD (j + 1) "") with
            | some pos => prev ++ " " ++ pyDrop next pos
            | none => prev ++ " " ++ next
          else prev ++ " " ++ next
      | none => prev ++ " " ++ next

/-- `merge_transcriptions(transcripts)`. -/
def merge_transcriptions (env : MergeEnv) (ts : List String) : String :=
  match ts with
  | [] => ""
  | t0 :: rest => normWs (rest.foldl (mergeStep env) (pyStrip t0))

end Merge

/-! ### Whitespace-normalization lemmas

`normWs` (the merger's final `re.sub(r"\s+", " ", ·).strip()`) is
characterised as joining the text's whitespace-separated words with single
spaces; hence it is invariant under stripping the pieces being
concatenated. -/

namespace Merge

/-- The whitespace-separated words of a character list. -/
def wordsL (l : List Char) : List (List Char) :=
  (splitPL isSpace l).filter (· ≠ [])

/-- Join words with single spaces. -/
def unwords (ws : List (List Char)) : List Char := joinWith [' '] ws

theorem splitPL_nil (p : Char → Bool) : splitPL p [] = [[]] := rfl

theorem splitPL_cons_pos (p : Char → Bool) (c : Char) (l : List Char)
    (hc : p c = true) : splitPL p (c :: l) = [] :: splitPL p l := by
  conv_lhs => unfold splitPL
  rw [if_pos hc]

theorem splitPL_ne_nil (p : Char → Bool) (l : List Char) : splitPL p l ≠ [] := by
  cases l with
  | nil => simp [splitPL]
  | cons c rest =>
      unfold splitPL
      split
      · simp
      · split <;> simp

theorem splitPL_cons_neg (p : Char → Bool) (c : Char) (l w : List Char)
    (ws : List (List Char)) (hc : p c = false) (hsr : splitPL p l = w :: ws) :
    splitPL p (c :: l) = (c :: w) :: ws := by
  unfold splitPL
  rw [if_neg (by simp [hc]), hsr]

theorem splitPL_append_sep (p : Char → Bool) (a b : List Char) (c : Char)
    (hc : p c = true) : splitPL p (a ++ c :: b) = splitPL p a ++ splitPL p b := by
  induction a with
  | nil =>
      rw [List.nil_append, splitPL_cons_pos p c b hc, splitPL_nil]
      rfl
  | cons d rest ih =>
      by_cases hd : p d = true
      · rw [List.cons_append, splitPL_cons_pos p d _ hd, splitPL_cons_pos p d _ hd, ih,
          List.cons_append]
      · have hd' : p d = false := by simpa using hd
        rcases hsr : splitPL p rest with _ | ⟨w, ws⟩
        · exact absurd hsr (splitPL_ne_nil p rest)
        · have h1 : splitPL p (rest ++ c :: b) = w :: (ws ++ splitPL p b) := by
            rw [ih, hsr]
            rfl
          rw [List.cons_append,
            splitPL_cons_neg p d _ w (ws ++ splitPL p b) hd' h1,
            splitPL_cons_neg p d rest w ws hd' hsr]
          rfl

theorem wordsL_append_space (a b : List Char) :
    wordsL (a ++ ' ' :: b) = wordsL a ++ wordsL b := by
  unfold wordsL
  rw [splitPL_append_sep isSpace a b ' ' (by decide), List.filter_append]

theorem wordsL_cons_space (c : Char) (l : List Char) (hc : isSpace c = true) :
    wordsL (c :: l) = wordsL l := by
  unfold wordsL
  rw [splitPL_cons_pos isSpace c l hc]
  simp

theorem wordsL_dropWhile (l : List Char) :
    wordsL (l.dropWhile isSpace) = wordsL l := by
  induction l with
  | nil => rfl
  | cons c rest ih =>
      by_cases hc : isSpace c = true
      · rw [List.dropWhile_cons_of_pos hc, ih, wordsL_cons_space c rest hc]
      · rw [List.dropWhile_cons_of_neg (by simp [hc])]

theorem splitPL_all_sep (p : Char → Bool) (ws : List Char) (h : ws.all p) :
    splitPL p ws = List.replicate (ws.length + 1) [] := by
  induction ws with
  | nil => rfl
  | cons c rest ih =>
      simp only [List.all_cons, Bool.and_eq_true] at h
      rw [splitPL_cons_pos p c rest h.1, ih h.2]
      rfl

theorem splitPL_append_all_sep (p : Char → Bool) (l ws : List Char) (h : ws.all p) :
    splitPL p (l ++ ws) = splitPL p l ++ List.replicate ws.length [] := by
  induction l with
  | nil =>
      rw [List.nil_append, splitPL_all_sep p ws h, splitPL_nil]
      rfl
  | cons d rest ih =>
      by_cases hd : p d = true
      · rw [List.cons_append, splitPL_cons_pos p d _ hd, splitPL_cons_pos p d _ hd, ih,
          List.cons_append]
      · have hd' : p d = false := by simpa using hd
        rcases hsr : splitPL p rest with _ | ⟨w, wss⟩
        · exact absurd hsr (splitPL_ne_nil p rest)
        · have h1 : splitPL p (rest ++ ws) = w :: (wss ++ List.replicate ws.length []) := by
            rw [ih, hsr]
            rfl
          rw [List.cons_append,
            splitPL_cons_neg p d _ w (wss ++ List.replicate ws.length []) hd' h1,
            splitPL_cons_neg p d rest w wss hd' hsr]
          rfl

theorem wordsL_append_all_sep (l ws : List Char) (h : ws.all isSpace) :
    wordsL (l ++ ws) = wordsL l := by
  unfold wordsL
  rw [splitPL_append_all_sep isSpace l ws h, List.filter_append]
  have hrep : (List.replicate ws.length ([] : List Char)).filter (· ≠ []) = [] := by
    induction ws.length with
    | zero => rfl
    | succ n ihn => simp [List.replicate_succ, ihn]
  rw [hrep, List.append_nil]

theorem wordsL_stripL (l : List Char) : wordsL (stripL l) = wordsL l := by
  have hdecomp : l.dropWhile isSpace =
      stripL l ++ ((l.dropWhile isSpace).reverse.takeWhile isSpace).reverse := by
    unfold stripL
    conv_lhs => rw [← List.reverse_reverse (l.dropWhile isSpace)]
    rw [← List.reverse_append]
    congr 1
    rw [← List.takeWhile_append_dropWhile (p := isSpace)
      (l := (l.dropWhile isSpace).reverse)]
    simp
  have htrail : (((l.dropWhile isSpace).reverse.takeWhile isSpace).reverse).all isSpace := by
    rw [List.all_reverse]
    exact List.all_takeWhile
  calc wordsL (stripL l)
      = wordsL (stripL l ++ ((l.dropWhile isSpace).reverse.takeWhile isSpace).reverse) :=
        (wordsL_append_all_sep _ _ htrail).symm
    _ = wordsL (l.dropWhile isSpace) := by rw [← hdecomp]
    _ = wordsL l := wordsL_dropWhile l

end Merge

namespace Merge

/-- Drop trailing whitespace. -/
def dropEndW (l : List Char) : List Char := (l.reverse.dropWhile isSpace).reverse

theorem dropEndW_append (u v : List Char) :
    dropEndW (u ++ v) = if (dropEndW v).isEmpty then dropEndW u else u ++ dropEndW v := by
  unfold dropEndW
  rw [List.reverse_append, List.dropWhile_append]
  by_cases h : (v.reverse.dropWhile isSpace).isEmpty
  · rw [if_pos h, if_pos (by simpa using h)]
  · rw [if_neg h, if_neg (by simpa using h), List.reverse_append, List.reverse_reverse]

theorem dropEndW_eq_nil_iff (l : List Char) :
    dropEndW l = [] ↔ ∀ c ∈ l, isSpace c = true := by
  unfold dropEndW
  rw [List.reverse_eq_nil_iff, List.dropWhile_eq_nil_iff]
  constructor
  · intro h c hc
    exact h c (List.mem_reverse.mpr hc)
  · intro h c hc
    exact h c (List.mem_reverse.mp hc)

theorem dropEndW_single_space : dropEndW [' '] = [] := by decide

theorem dropEndW_cons_space (z : List Char) :
    dropEndW (' ' :: z) = if (dropEndW z).isEmpty then [] else ' ' :: dropEndW z := by
  have h := dropEndW_append [' '] z
  simp only [List.singleton_append] at h
  rw [h, dropEndW_single_space]

theorem dropWhile_head_false {q : Char → Bool} :
    ∀ (l : List Char) (c' : Char) (r2 : List Char), l.dropWhile q = c' :: r2 → q c' = false := by
  intro l
  induction l with
  | nil => intro c' r2 h; exact absurd h (by simp)
  | cons a t ih =>
      intro c' r2 h
      by_cases ha : q a = true
      · rw [List.dropWhile_cons_of_pos ha] at h
        exact ih c' r2 h
      · rw [List.dropWhile_cons_of_neg ha] at h
        obtain ⟨rfl, -⟩ := List.cons.inj h
        simpa using ha

theorem dropWhile_eq_self_of_all {q : Char → Bool} (l : List Char)
    (h : l.all (fun x => !q x)) : l.dropWhile q = l := by
  cases l with
  | nil => rfl
  | cons a t =>
      simp only [List.all_cons, Bool.and_eq_true, Bool.not_eq_true'] at h
      exact List.dropWhile_cons_of_neg (by simp [h.1])

theorem stripL_all_nonspace (w : List Char) (h : w.all (fun c => !isSpace c)) :
    stripL w = w := by
  unfold stripL
  rw [dropWhile_eq_self_of_all w h,
    dropWhile_eq_self_of_all w.reverse (by simpa using h), List.reverse_reverse]

theorem stripL_cons_space (c : Char) (l : List Char) (hc : isSpace c = true) :
    stripL (c :: l) = stripL l := by
  unfold stripL
  rw [List.dropWhile_cons_of_pos hc]

theorem stripL_eq_dropEndW_dropWhile (l : List Char) :
    stripL l = dropEndW (l.dropWhile isSpace) := rfl

theorem dropEndW_ne_nil_of_head {c : Char} {z : List Char} (hc : isSpace c = false) :
    dropEndW (c :: z) ≠ [] := by
  intro h
  rw [dropEndW_eq_nil_iff] at h
  exact absurd (h c (by simp)) (by simp [hc])

theorem collapseWsA_cons_space (c : Char) (rest : List Char) (hc : isSpace c = true) :
    collapseWsA (c :: rest) false = ' ' :: collapseWsA rest true := by
  conv_lhs => unfold collapseWsA
  rw [if_pos hc, if_neg (by simp)]

theorem collapseWsA_cons_nonspace (c : Char) (rest : List Char) (b : Bool)
    (hc : isSpace c = false) :
    collapseWsA (c :: rest) b = c :: collapseWsA rest false := by
  conv_lhs => unfold collapseWsA
  rw [if_neg (by simp [hc])]

theorem collapseWsA_true (l : List Char) :
    collapseWsA l true = collapseWsA (l.dropWhile isSpace) false := by
  induction l with
  | nil => rfl
  | cons c rest ih =>
      by_cases hc : isSpace c = true
      · rw [List.dropWhile_cons_of_pos hc, ← ih]
        conv_lhs => unfold collapseWsA
        rw [if_pos hc, if_pos rfl]
      · have hc' : isSpace c = false := by simpa using hc
        rw [List.dropWhile_cons_of_neg (by simp [hc']),
          collapseWsA_cons_nonspace c rest true hc',
          collapseWsA_cons_nonspace c rest false hc']

theorem collapseWsA_word (w r : List Char) (h : w.all (fun c => !isSpace c)) :
    collapseWsA (w ++ r) false = w ++ collapseWsA r false := by
  induction w with
  | nil => rfl
  | cons a w' ih =>
      simp only [List.all_cons, Bool.and_eq_true, Bool.not_eq_true'] at h
      rw [List.cons_append, collapseWsA_cons_nonspace a (w' ++ r) false h.1,
        ih (by simp [List.all_eq_true] at h ⊢; exact h.2), List.cons_append]

theorem splitPL_word_left (p : Char → Bool) :
    ∀ (w r h : List Char) (t : List (List Char)), w.all (fun c => !p c) →
      splitPL p r = h :: t → splitPL p (w ++ r) = (w ++ h) :: t := by
  intro w
  induction w with
  | nil => intro r h t _ hr; simpa using hr
  | cons a w' ih =>
      intro r h t hall hr
      simp only [List.all_cons, Bool.and_eq_true, Bool.not_eq_true'] at hall
      rw [List.cons_append,
        splitPL_cons_neg p a (w' ++ r) (w' ++ h) t hall.1
          (ih r h t (by simp [List.all_eq_true] at hall ⊢; exact hall.2) hr),
        List.cons_append]

theorem unwords_cons_of_ne (w : List Char) (ws : List (List Char)) (h : ws ≠ []) :
    unwords (w :: ws) = w ++ ' ' :: unwords ws := by
  unfold unwords
  cases ws with
  | nil => exact absurd rfl h
  | cons y ys =>
      conv_lhs => unfold joinWith
      rw [List.append_assoc]
      rfl

theorem wordsL_cons_nonspace_ne_nil (c : Char) (t : List Char) (hc : isSpace c = false) :
    wordsL (c :: t) ≠ [] := by
  unfold wordsL
  rcases hsr : splitPL isSpace t with _ | ⟨w, ws⟩
  · exact absurd hsr (splitPL_ne_nil isSpace t)
  · rw [splitPL_cons_neg isSpace c t w ws hc hsr]
    simp

end Merge

namespace Merge

theorem dropEndW_all_nonspace (w : List Char) (h : w.all (fun c => !isSpace c)) :
    dropEndW w = w := by
  unfold dropEndW
  rw [dropWhile_eq_self_of_all w.reverse (by simpa using h), List.reverse_reverse]

/-- `re.sub(r"\s+"," ",·).strip()` equals joining the whitespace-separated
words with single spaces. -/
theorem nwL_eq_unwords (l : List Char) :
    stripL (collapseWsA l false) = unwords (wordsL l) := by
  have H : ∀ n, ∀ l : List Char, l.length ≤ n →
      stripL (collapseWsA l false) = unwords (wordsL l) := by
    intro n
    induction n with
    | zero =>
        intro l hl
        have hnil : l = [] := List.eq_nil_of_length_eq_zero (Nat.le_zero.mp hl)
        subst hnil
        rfl
    | succ n ih =>
        intro l hl
        cases l with
        | nil => rfl
        | cons c rest =>
        by_cases hc : isSpace c = true
        · calc stripL (collapseWsA (c :: rest) false)
              = stripL (' ' :: collapseWsA rest true) := by
                rw [collapseWsA_cons_space c rest hc]
            _ = stripL (collapseWsA rest true) :=
                stripL_cons_space ' ' _ (by decide)
            _ = stripL (collapseWsA (rest.dropWhile isSpace) false) := by
                rw [collapseWsA_true]
            _ = unwords (wordsL (rest.dropWhile isSpace)) := by
                refine ih _ (le_trans (List.dropWhile_sublist _).length_le ?_)
                simpa using Nat.le_of_succ_le_succ hl
            _ = unwords (wordsL rest) := by rw [wordsL_dropWhile]
            _ = unwords (wordsL (c :: rest)) := by rw [wordsL_cons_space c rest hc]
        · have hc' : isSpace c = false := by simpa using hc
          set q : Char → Bool := fun x => !isSpace x with hq
          have hqc : q c = true := by simp [hq, hc']
          set w := (c :: rest).takeWhile q with hw
          set r := (c :: rest).dropWhile q with hr
          have hwr : w ++ r = c :: rest := by
            rw [hw, hr]
            exact List.takeWhile_append_dropWhile q (c :: rest)
          have hw_all : w.all q := List.all_takeWhile
          have hw_allns : w.all (fun x => !isSpace x) := hw_all
          have hcw : collapseWsA (c :: rest) false = w ++ collapseWsA r false := by
            rw [← hwr, collapseWsA_word w r hw_allns]
          have hrlen : r.length ≤ rest.length := by
            rw [hr, List.dropWhile_cons_of_pos hqc]
            exact (List.dropWhile_sublist _).length_le
          have hw_ne : w ≠ [] := by
            rw [hw, List.takeWhile_cons_of_pos hqc]
            simp
          have hdw_w : ∀ X : List Char, (w ++ X).dropWhile isSpace = w ++ X := by
            intro X
            cases hwc : w with
            | nil => exact absurd hwc hw_ne
            | cons a w' =>
                have ha : isSpace a = false := by
                  have := hw_all
                  rw [hwc] at this
                  simp only [hq, List.all_cons, Bool.and_eq_true,
                    Bool.not_eq_true'] at this
                  exact this.1
                rw [List.cons_append]
                exact List.dropWhile_cons_of_neg (by simp [ha])
          cases hrc : r with
          | nil =>
              rw [hcw, hrc]
              have : collapseWsA ([] : List Char) false = [] := rfl
              rw [this, List.append_nil, stripL_all_nonspace w hw_allns]
              have hwords : wordsL (c :: rest) = [w] := by
                unfold wordsL
                rw [← hwr, hrc, List.append_nil, ← List.append_nil w]
                rw [splitPL_word_left isSpace w [] [] [] hw_allns rfl]
                simp [hw_ne]
              rw [hwords]
              rfl
          | cons c' r2 =>
              have hc'sp : isSpace c' = true := by
                have := dropWhile_head_false (q := q) (c :: rest) c' r2 (hr ▸ hrc)
                simp [hq] at this
                exact this
              have hsplit_r : splitPL isSpace r = [] :: splitPL isSpace r2 := by
                rw [hrc, splitPL_cons_pos isSpace c' r2 hc'sp]
              have hwords : wordsL (c :: rest) = w :: wordsL r2 := by
                unfold wordsL
                rcases hsr2 : splitPL isSpace r2 with _ | ⟨h2, t2⟩
                · exact absurd hsr2 (splitPL_ne_nil isSpace r2)
                · rw [← hwr,
                    splitPL_word_left isSpace w r [] (splitPL isSpace r2) hw_allns
                      (by rw [hsplit_r]), List.append_nil, hsr2]
                  simp only [List.filter_cons]
                  rw [if_pos (by simpa using hw_ne)]
              set r2' := r2.dropWhile isSpace with hr2'
              have hcoll_r : collapseWsA r false = ' ' :: collapseWsA r2' false := by
                rw [hrc, collapseWsA_cons_space c' r2 hc'sp, collapseWsA_true]
              set z := collapseWsA r2' false with hz
              have hlen2 : r2'.length ≤ n := by
                have h1 : r2.length < r.length := by rw [hrc]; simp
                have h2 : r2'.length ≤ r2.length := by
                  rw [hr2']
                  exact (List.dropWhile_sublist _).length_le
                have h3 : rest.length ≤ n := by simpa using Nat.le_of_succ_le_succ hl
                omega
              have hIH : stripL z = unwords (wordsL r2') := by
                rw [hz]
                exact ih r2' hlen2
              have hstrip : stripL (collapseWsA (c :: rest) false) =
                  dropEndW (w ++ ' ' :: z) := by
                rw [hcw, hcoll_r, stripL_eq_dropEndW_dropWhile, hdw_w]
              have hwords2 : wordsL r2 = wordsL r2' := (wordsL_dropWhile r2).symm
              cases hr2c : r2' with
              | nil =>
                  have hz_nil : z = [] := by rw [hz, hr2c]; rfl
                  rw [hstrip, hz_nil,
                    show (' ' :: ([] : List Char)) = [' '] from rfl,
                    dropEndW_append w [' '], dropEndW_single_space]
                  simp only [List.isEmpty_nil, if_true]
                  rw [dropEndW_all_nonspace w hw_allns, hwords, hwords2, hr2c]
                  rfl
              | cons c'' r3 =>
                  have hdwr2 : r2.dropWhile isSpace = c'' :: r3 := by
                    rw [← hr2']
                    exact hr2c
                  have hc''ns : isSpace c'' = false :=
                    dropWhile_head_false r2 c'' r3 hdwr2
                  have hz_cons : z = c'' :: collapseWsA r3 false := by
                    rw [hz, hr2c, collapseWsA_cons_nonspace c'' r3 false hc''ns]
                  have hdz_ne : dropEndW z ≠ [] := by
                    rw [hz_cons]
                    exact dropEndW_ne_nil_of_head hc''ns
                  have hdz_cons : dropEndW (' ' :: z) = ' ' :: dropEndW z := by
                    rw [dropEndW_cons_space z, if_neg (by simpa using hdz_ne)]
                  have hstrip2 : dropEndW (w ++ ' ' :: z) = w ++ ' ' :: dropEndW z := by
                    rw [dropEndW_append w (' ' :: z), hdz_cons, if_neg (by simp)]
                  have hdz_strip : stripL z = dropEndW z := by
                    have hself : z.dropWhile isSpace = z := by
                      rw [hz_cons]
                      exact List.dropWhile_cons_of_neg (by simp [hc''ns])
                    rw [stripL_eq_dropEndW_dropWhile, hself]
                  have hw_ne2 : wordsL r2' ≠ [] := by
                    rw [hr2c]
                    exact wordsL_cons_nonspace_ne_nil c'' r3 hc''ns
                  rw [hstrip, hstrip2, ← hdz_strip, hIH, hwords, hwords2,
                    unwords_cons_of_ne w (wordsL r2') hw_ne2]
  exact H l.length l le_rfl

end Merge

namespace Merge

theorem foldl_fb_none (bs ns : List String) (θ : ℚ) (L : List (Nat × Nat))
    (h : ∀ p ∈ L, SeqMatcher.ratioS (bs.getD p.1 "") (ns.getD p.2 "") ≤ θ) :
    L.foldl (fbStep bs ns) (θ, none) = (θ, none) := by
  induction L with
  | nil => rfl
  | cons p t ih =>
      have hp := h p (by simp)
      rw [List.foldl_cons]
      rw [show fbStep bs ns (θ, none) p = (θ, none) from by
        unfold fbStep
        rw [if_neg (not_lt.mpr hp)]]
      exact ih (fun q hq => h q (by simp [hq]))

theorem foldl_fb_fst_ge (bs ns : List String) (L : List (Nat × Nat))
    (st : ℚ × Option (Nat × Nat)) : st.1 ≤ (L.foldl (fbStep bs ns) st).1 := by
  induction L generalizing st with
  | nil => exact le_refl _
  | cons p t ih =>
      rw [List.foldl_cons]
      refine le_trans ?_ (ih (fbStep bs ns st p))
      unfold fbStep
      split
      · exact le_of_lt (by assumption)
      · exact le_refl _

theorem foldl_fb_le (bs ns : List String) (L : List (Nat × Nat))
    (st : ℚ × Option (Nat × Nat)) :
    ∀ p ∈ L, SeqMatcher.ratioS (bs.getD p.1 "") (ns.getD p.2 "") ≤
      (L.foldl (fbStep bs ns) st).1 := by
  induction L generalizing st with
  | nil => intro p hp; exact absurd hp (by simp)
  | cons q t ih =>
      intro p hp
      rw [List.foldl_cons]
      rcases List.mem_cons.mp hp with rfl | hpt
      · refine le_trans ?_ (foldl_fb_fst_ge bs ns t (fbStep bs ns st p))
        unfold fbStep
        split
        · exact le_refl _
        · exact le_of_not_lt (by assumption)
      · exact ih (fbStep bs ns st q) p hpt

theorem foldl_fb_some (bs ns : List String) (θ : ℚ) (L : List (Nat × Nat))
    (st : ℚ × Option (Nat × Nat))
    (h1 : θ ≤ st.1)
    (h2 : ∀ q, st.2 = some q →
      st.1 = SeqMatcher.ratioS (bs.getD q.1 "") (ns.getD q.2 "") ∧ θ < st.1) :
    θ ≤ (L.foldl (fbStep bs ns) st).1 ∧
    ∀ q, (L.foldl (fbStep bs ns) st).2 = some q →
      (L.foldl (fbStep bs ns) st).1 =
        SeqMatcher.ratioS (bs.getD q.1 "") (ns.getD q.2 "") ∧
      θ < (L.foldl (fbStep bs ns) st).1 := by
  induction L generalizing st with
  | nil => exact ⟨h1, h2⟩
  | cons p t ih =>
      rw [List.foldl_cons]
      refine ih (fbStep bs ns st p) ?_ ?_
      · refine le_trans h1 ?_
        unfold fbStep
        split
        · exact le_of_lt (by assumption)
        · exact le_refl _
      · intro q hq
        unfold fbStep at hq ⊢
        split at hq
        · simp only [Option.some.injEq] at hq
          subst hq
          rw [if_pos (by assumption)]
          exact ⟨rfl, lt_of_le_of_lt h1 (by assumption)⟩
        · rw [if_neg (by assumption)]
          exact h2 q hq

theorem findBest_none_of_le (θ : ℚ) (bs ns : List String)
    (h : ∀ p ∈ pairIdx bs ns,
      SeqMatcher.ratioS (bs.getD p.1 "") (ns.getD p.2 "") ≤ θ) :
    findBest θ bs ns = none := by
  unfold findBest
  rw [foldl_fb_none bs ns θ (pairIdx bs ns) h]

theorem findBest_some_spec (θ : ℚ) (bs ns : List String) (bi j : Nat)
    (h : findBest θ bs ns = some (bi, j)) :
    θ < SeqMatcher.ratioS (bs.getD bi "") (ns.getD j "") ∧
    ∀ p ∈ pairIdx bs ns,
      SeqMatcher.ratioS (bs.getD p.1 "") (ns.getD p.2 "") ≤
        SeqMatcher.ratioS (bs.getD bi "") (ns.getD j "") := by
  unfold findBest at h
  have hs := foldl_fb_some bs ns θ (pairIdx bs ns) (θ, none) (le_refl θ)
    (fun q hq => by simp at hq)
  obtain ⟨hfst, hsome⟩ := hs
  obtain ⟨heq, hgt⟩ := hsome (bi, j) h
  constructor
  · rw [← heq]
    exact hgt
  · intro p hp
    rw [← heq]
    exact foldl_fb_le bs ns (pairIdx bs ns) (θ, none) p hp

theorem pairIdx_mem (bs ns : List String) (p : Nat × Nat) :
    p ∈ pairIdx bs ns ↔ p.1 < bs.length ∧ p.2 < ns.length := by
  unfold pairIdx
  simp only [List.mem_flatMap, List.mem_map, List.mem_range]
  constructor
  · rintro ⟨ai, hai, j, hj, rfl⟩
    exact ⟨hai, hj⟩
  · rintro ⟨h1, h2⟩
    exact ⟨p.1, h1, p.2, h2, rfl⟩

theorem getD_mem (l : List String) (n : Nat) (d : String) (h : n < l.length) :
    l.getD n d ∈ l := by
  induction l generalizing n with
  | nil => simp at h
  | cons a t ih =>
      cases n with
      | zero => simp [List.getD]
      | succ m =>
          simp only [List.getD_cons_succ]
          exact List.mem_cons_of_mem a (ih m (by simpa using h))

end Merge

namespace Merge

theorem normWs_eq_unwords (s : String) :
    normWs s = (unwords (wordsL s.toList)).asString := by
  unfold normWs
  rw [nwL_eq_unwords]

theorem toList_append3 (A B : String) :
    (A ++ " " ++ B).toList = A.toList ++ ' ' :: B.toList := by
  show ((A ++ " ") ++ B).data = A.data ++ ' ' :: B.data
  rw [String.data_append, String.data_append, List.append_assoc]
  rfl

/-- Stripping the two pieces before concatenation does not change the
whitespace-normalized result. -/
theorem normWs_strip_append (A B : String) :
    normWs (pyStrip A ++ " " ++ pyStrip B) = normWs (A ++ " " ++ B) := by
  rw [normWs_eq_unwords, normWs_eq_unwords, toList_append3, toList_append3,
    show (pyStrip A).toList = stripL A.toList from rfl,
    show (pyStrip B).toList = stripL B.toList from rfl,
    wordsL_append_space, wordsL_append_space, wordsL_stripL, wordsL_stripL]

theorem strip_toList_eq_nil {B : String} (hB : pyStrip B = "") :
    stripL B.toList = [] := by
  have h := congrArg String.toList hB
  exact h

/-- When the second piece is pure whitespace, dropping it altogether is
also invariant. -/
theorem normWs_strip_left (A B : String) (hB : pyStrip B = "") :
    normWs (pyStrip A) = normWs (A ++ " " ++ B) := by
  rw [normWs_eq_unwords, normWs_eq_unwords, toList_append3,
    show (pyStrip A).toList = stripL A.toList from rfl,
    wordsL_append_space, wordsL_stripL]
  have hw : wordsL B.toList = [] := by
    rw [← wordsL_stripL B.toList, strip_toList_eq_nil hB]
    rfl
  rw [hw, List.append_nil]

/-- The sentences of the accumulated text's 1500-char tail window when
merging chunk B onto chunk A. -/
def mergePrevSents (env : MergeEnv) (A : String) : List String :=
  split_sentences_smart env.thaiTok (pyTakeRight (pyStrip A) 1500)

/-- The sentences of the new chunk's 1500-char leading window. -/
def mergeNextSents (env : MergeEnv) (B : String) : List String :=
  split_sentences_smart env.thaiTok (pyTake (pyStrip B) 1500)

end Merge

/-! ### Claim C4 -/

/-- Claim C4: for chunks sharing no overlapping content — no sentence pair
between the tail window's last-3 sentences and the head window's sentences
similarity-exceeds the merge threshold — `merge_transcriptions [A, B]`
equals the whitespace-normalized concatenation `A ++ " " ++ B`. -/
theorem C4_nonoverlapping_append (env : Merge.MergeEnv) (A B : String)
    (h : ∀ s1 ∈ Merge.boundSents (Merge.mergePrevSents env A),
         ∀ s2 ∈ Merge.mergeNextSents env B,
         SeqMatcher.ratioS s1 s2 ≤ env.threshold) :
    Merge.merge_transcriptions env [A, B] = Merge.normWs (A ++ " " ++ B) := by
  unfold Merge.mergePrevSents Merge.mergeNextSents at h
  rw [show Merge.merge_transcriptions env [A, B] =
      Merge.normWs (Merge.mergeStep env (pyStrip A) B) from rfl]
  unfold Merge.mergeStep
  by_cases hB : pyStrip B = ""
  · rw [if_pos hB]
    exact Merge.normWs_strip_left A B hB
  · rw [if_neg hB]
    simp only
    by_cases hempty : (Merge.split_sentences_smart env.thaiTok
        (pyTakeRight (pyStrip A) 1500)).isEmpty ||
        (Merge.split_sentences_smart env.thaiTok (pyTake (pyStrip B) 1500)).isEmpty
    · rw [if_pos hempty]
      exact Merge.normWs_strip_append A B
    · rw [if_neg hempty]
      have hfb : Merge.findBest env.threshold
          (Merge.boundSents (Merge.split_sentences_smart env.thaiTok
            (pyTakeRight (pyStrip A) 1500)))
          (Merge.split_sentences_smart env.thaiTok (pyTake (pyStrip B) 1500)) =
          none := by
        apply Merge.findBest_none_of_le
        intro p hp
        obtain ⟨h1, h2⟩ := (Merge.pairIdx_mem _ _ p).mp hp
        exact h _ (Merge.getD_mem _ _ _ h1) _ (Merge.getD_mem _ _ _ h2)
      rw [hfb]
      exact Merge.normWs_strip_append A B

/-- Witness for `C4_nonoverlapping_append`: `"abc"` and `"xyz"` share no
similar sentences, so the merge is the normalized concatenation. -/
theorem C4_nonoverlapping_append_witness :
    Merge.merge_transcriptions ⟨none, mkRat 7 10⟩ ["abc", "xyz"] =
      Merge.normWs ("abc" ++ " " ++ "xyz") :=
  C4_nonoverlapping_append ⟨none, mkRat 7 10⟩ "abc" "xyz" (by decide)

/-! ### Claim C5 -/

/-- Claim C5: the merge step's complete case analysis. With the accumulated
tail window's last-3 sentences compared against every sentence of the new
chunk's leading window: (1) when the best pair clears the threshold and a
sentence follows the matched one, only the text of the new chunk from that
following sentence's (first) occurrence on is appended; (2) the pair
`findBest` returns strictly exceeds the threshold and is best-scoring among
all compared pairs; (3) when the match is the window's last sentence, and
(4) when nothing clears the threshold, the whole new chunk is appended
unchanged. -/
theorem C5_merge_step_cases (env : Merge.MergeEnv) (A B : String) :
    (∀ bi j pos, pyStrip B ≠ "" →
      (Merge.mergePrevSents env A).isEmpty = false →
      (Merge.mergeNextSents env B).isEmpty = false →
      Merge.findBest env.threshold (Merge.boundSents (Merge.mergePrevSents env A))
        (Merge.mergeNextSents env B) = some (bi, j) →
      j + 1 < (Merge.mergeNextSents env B).length →
      findSub (pyStrip B) ((Merge.mergeNextSents env B).getD (j + 1) "") = some pos →
      Merge.merge_transcriptions env [A, B] =
        Merge.normWs (pyStrip A ++ " " ++ pyDrop (pyStrip B) pos)) ∧
    (∀ bi j, Merge.findBest env.threshold
        (Merge.boundSents (Merge.mergePrevSents env A))
        (Merge.mergeNextSents env B) = some (bi, j) →
      env.threshold < SeqMatcher.ratioS
          ((Merge.boundSents (Merge.mergePrevSents env A)).getD bi "")
          ((Merge.mergeNextSents env B).getD j "") ∧
      ∀ p ∈ Merge.pairIdx (Merge.boundSents (Merge.mergePrevSents env A))
          (Merge.mergeNextSents env B),
        SeqMatcher.ratioS
            ((Merge.boundSents (Merge.mergePrevSents env A)).getD p.1 "")
            ((Merge.mergeNextSents env B).getD p.2 "") ≤
          SeqMatcher.ratioS
            ((Merge.boundSents (Merge.mergePrevSents env A)).getD bi "")
            ((Merge.mergeNextSents env B).getD j "")) ∧
    (∀ bi j, pyStrip B ≠ "" →
      (Merge.mergePrevSents env A).isEmpty = false →
      (Merge.mergeNextSents env B).isEmpty = false →
      Merge.findBest env.threshold (Merge.boundSents (Merge.mergePrevSents env A))
        (Merge.mergeNextSents env B) = some (bi, j) →
      ¬(j + 1 < (Merge.mergeNextSents env B).length) →
      Merge.merge_transcriptions env [A, B] = Merge.normWs (A ++ " " ++ B)) ∧
    (pyStrip B ≠ "" →
      (Merge.mergePrevSents env A).isEmpty = false →
      (Merge.mergeNextSents env B).isEmpty = false →
      Merge.findBest env.threshold (Merge.boundSents (Merge.mergePrevSents env A))
        (Merge.mergeNextSents env B) = none →
      Merge.merge_transcriptions env [A, B] = Merge.normWs (A ++ " " ++ B)) := by
  have hred : Merge.merge_transcriptions env [A, B] =
      Merge.normWs (Merge.mergeStep env (pyStrip A) B) := rfl
  refine ⟨?_, ?_, ?_, ?_⟩
  · intro bi j pos hB hpe hne hfb hj hpos
    unfold Merge.mergePrevSents at hpe hfb
    unfold Merge.mergeNextSents at hne hfb hj hpos
    rw [hred]
    unfold Merge.mergeStep
    rw [if_neg hB]
    simp only
    rw [if_neg (by rw [hpe, hne]; simp), hfb]
    simp only
    rw [if_pos hj, hpos]
  · intro bi j hfb
    exact Merge.findBest_some_spec env.threshold _ _ bi j hfb
  · intro bi j hB hpe hne hfb hj
    unfold Merge.mergePrevSents at hpe hfb
    unfold Merge.mergeNextSents at hne hfb hj
    rw [hred]
    unfold Merge.mergeStep
    rw [if_neg hB]
    simp only
    rw [if_neg (by rw [hpe, hne]; simp), hfb]
    simp only
    rw [if_neg hj]
    exact Merge.normWs_strip_append A B
  · intro hB hpe hne hfb
    unfold Merge.mergePrevSents at hpe hfb
    unfold Merge.mergeNextSents at hne hfb
    rw [hred]
    unfold Merge.mergeStep
    rw [if_neg hB]
    simp only
    rw [if_neg (by rw [hpe, hne]; simp), hfb]
    exact Merge.normWs_strip_append A B

/-- Witness for `C5_merge_step_cases`: the first sentence of
`"AOT rises\nKBANK steady"` restates the tail of `"AOT rises"` (similarity
1.0 > 0.70), so only `"KBANK steady"` is spliced in: each sentence appears
exactly once in the merged output. -/
theorem C5_merge_step_cases_witness :
    Merge.merge_transcriptions ⟨none, mkRat 7 10⟩
      ["AOT rises", "AOT rises\nKBANK steady"] = "AOT rises KBANK steady" :=
  ((C5_merge_step_cases ⟨none, mkRat 7 10⟩ "AOT rises" "AOT rises\nKBANK steady").1
    0 0 10 (by decide) (by decide) (by decide) (by decide) (by decide)
    (by decide)).trans (by decide)
